import Mathlib

/-!
# Verification of the property-agent extraction, matching and orchestration core

Shallow embedding of the repository's core logic:

* `parser/listing_parser.py` — per-property PDF extraction (`parse_pdf_properties`,
  `_parse_size`, `_parse_reserve`, the regex tables, `Property.property_hash`,
  `Property.is_opportunity`);
* `scheduler/job_scheduler.py` — `_matches_property` and the scrape-and-notify loop;
* `database/db.py` — `upsert_property`, `is_listing_seen`, `mark_listing_seen`.

Modelling conventions:

* Text is `List Char`.  The Python regexes used by the source are small and fixed,
  so each one is embedded as a hand-written matcher with Python's leftmost /
  greedy-with-backtracking semantics.  Character classes (`\d`, `\s`, `\w`) and
  `IGNORECASE` are modelled over their ASCII meaning, which is the alphabet the
  scraped documents use.
* Python floats produced by the code are exact: every numeric string the code
  converts is a plain digit string (the capture groups contain no decimal
  point), so prices and sizes are modelled as `ℚ` with exact integer values;
  user-entered preference bounds are arbitrary `ℚ`.
* SQLite state is modelled as explicit in-memory lists; `INSERT OR IGNORE` on a
  primary key becomes a guarded append.
* Python functions are total on the inputs the program feeds them; fallible
  conversions (`int(...)`, `float(...)`) are `Option`-valued.
-/

namespace PropertyAgent

/-! ## Character classes (ASCII model of Python `\d`, `\s`, `\w`, `str.lower`) -/

/-- ASCII decimal digit, Python `\d`. -/
def isDigitC (c : Char) : Bool := 48 ≤ c.toNat && c.toNat ≤ 57

/-- Python `\s` (and the characters `str.strip` removes): space, TAB, LF, VT, FF, CR. -/
def isSpaceC (c : Char) : Bool :=
  c.toNat == 32 || c.toNat == 9 || c.toNat == 10 || c.toNat == 11 ||
  c.toNat == 12 || c.toNat == 13

/-- Python `\w`: letters, digits, underscore (ASCII). -/
def wordChar (c : Char) : Bool :=
  (65 ≤ c.toNat && c.toNat ≤ 90) || (97 ≤ c.toNat && c.toNat ≤ 122) ||
  isDigitC c || c == '_'

/-- ASCII lower-casing, as used to model `re.IGNORECASE` and `str.lower()`. -/
def toLowerC (c : Char) : Char :=
  if 65 ≤ c.toNat ∧ c.toNat ≤ 90 then Char.ofNat (c.toNat + 32) else c

/-- `str.lower()` over a whole text. -/
def lowerL (l : List Char) : List Char := l.map toLowerC

/-- Case-insensitive literal match: `litCI pat l` consumes `pat` (given in
lowercase) from the front of `l` and returns the rest, or `none`. -/
def litCI : List Char → List Char → Option (List Char)
  | [], l => some l
  | _ :: _, [] => none
  | p :: ps, c :: cs => if toLowerC c == p then litCI ps cs else none

/-- `\s+` with maximal munch (equivalent to the regex here because every
following token in the source patterns starts with a non-space character). -/
def wsPlus : List Char → Option (List Char)
  | c :: cs => if isSpaceC c then some (cs.dropWhile isSpaceC) else none
  | [] => none

/-- A sequence of case-insensitive words separated by `\s+`. -/
def wordsMatchAt : List (List Char) → List Char → Option (List Char)
  | [], l => some l
  | w :: ws, l =>
    match litCI w l with
    | none => none
    | some r =>
      match ws with
      | [] => some r
      | _ :: _ =>
        match wsPlus r with
        | none => none
        | some r2 => wordsMatchAt ws r2

/-- Trailing `\b` after a word character: next char absent or non-word. -/
def endBoundary : List Char → Bool
  | [] => true
  | c :: _ => !wordChar c

/-- Search for `\b<w1>\s+<w2>\s+...\b` (each word starting and ending with a
word character); `prevW` records whether the previous character is a word
character, giving the leading `\b`. -/
def phraseSearchAux (ws : List (List Char)) : Bool → List Char → Bool
  | _, [] => false
  | prevW, c :: rest =>
    ((!prevW) && (match wordsMatchAt ws (c :: rest) with
                  | some r => endBoundary r
                  | none => false))
    || phraseSearchAux ws (wordChar c) rest

/-- `_NO_COURT_RESERVE_RE = \bNo\s+Court\s+Reserve\b` (IGNORECASE), as a search. -/
def noCourtReserveSearch (l : List Char) : Bool :=
  phraseSearchAux ["no".data, "court".data, "reserve".data] false l

/-- `_BANK_RESERVE_RE = \bBank\s+Reserve\b` (IGNORECASE), as a search. -/
def bankReserveSearch (l : List Char) : Bool :=
  phraseSearchAux ["bank".data, "reserve".data] false l

/-! ## `_COURT_RESERVE_RE = R\s*([\d][\d\s,]*)(?:\.\d+)?\s*(?:–\s*)?Court\s+Reserve` -/

/-- The capture-group character class `[\d\s,]`. -/
def numClass (c : Char) : Bool := isDigitC c || isSpaceC c || c == ','

/-- The part of `_COURT_RESERVE_RE` after the capture group:
`(?:\.\d+)?\s*(?:–\s*)?Court\s+Reserve`.  Each optional piece is forced
whenever its first character is present (taking it is the only branch that can
succeed, so no further backtracking is needed). -/
def courtAfterNum (l : List Char) : Bool :=
  let l1 := match l with
            | '.' :: d :: rest => if isDigitC d then (d :: rest).dropWhile isDigitC else l
            | _ => l
  let l2 := l1.dropWhile isSpaceC
  let l3 := match l2 with
            | c :: rest => if c == '–' then rest.dropWhile isSpaceC else l2
            | [] => l2
  (wordsMatchAt ["court".data, "reserve".data] l3).isSome

/-- Greedy `[\d\s,]*` with backtracking against `courtAfterNum`; returns the
characters consumed by the star. -/
def courtStar : List Char → Option (List Char)
  | [] => if courtAfterNum [] then some [] else none
  | c :: rest =>
    if numClass c then
      match courtStar rest with
      | some cap => some (c :: cap)
      | none => if courtAfterNum (c :: rest) then some [] else none
    else
      if courtAfterNum (c :: rest) then some [] else none

/-- Try `_COURT_RESERVE_RE` anchored at the head; returns group 1. -/
def courtMatchAt : List Char → Option (List Char)
  | c :: rest =>
    if toLowerC c == 'r' then
      match rest.dropWhile isSpaceC with
      | d :: r2 => if isDigitC d then (courtStar r2).map (d :: ·) else none
      | [] => none
    else none
  | [] => none

/-- `_COURT_RESERVE_RE.search`: leftmost match, returning group 1. -/
def courtSearch : List Char → Option (List Char)
  | [] => none
  | c :: rest =>
    match courtMatchAt (c :: rest) with
    | some cap => some cap
    | none => courtSearch rest

/-! ## `_SIZE_RE = (\d[\d\s]*)m²` (IGNORECASE) -/

/-- The literal tail `m²` of `_SIZE_RE`. -/
def sizeTail : List Char → Bool
  | m :: sq :: _ => toLowerC m == 'm' && sq == '²'
  | _ => false

/-- Greedy `[\d\s]*` with backtracking against the `m²` tail. -/
def sizeStar : List Char → Option (List Char)
  | [] => none
  | c :: rest =>
    if isDigitC c || isSpaceC c then
      match sizeStar rest with
      | some cap => some (c :: cap)
      | none => if sizeTail (c :: rest) then some [] else none
    else
      if sizeTail (c :: rest) then some [] else none

/-- Try `_SIZE_RE` anchored at the head; returns group 1. -/
def sizeMatchAt : List Char → Option (List Char)
  | c :: rest => if isDigitC c then (sizeStar rest).map (c :: ·) else none
  | [] => none

/-- `_SIZE_RE.search`: leftmost match, returning group 1. -/
def sizeSearch : List Char → Option (List Char)
  | [] => none
  | c :: rest =>
    match sizeMatchAt (c :: rest) with
    | some cap => some cap
    | none => sizeSearch rest

/-! ## Section markers and the numbered-entry split -/

/-- `_SECTION_START_RE = NO IMAGE\s+ADDRESS` (IGNORECASE) anchored at the head;
returns the text after the match end. -/
def sectionStartMatchAt (l : List Char) : Option (List Char) :=
  match litCI "no image".data l with
  | none => none
  | some r =>
    match wsPlus r with
    | none => none
    | some r2 => litCI "address".data r2

/-- `_SECTION_START_RE.search`, returning the text after the leftmost match. -/
def sectionStartSearch : List Char → Option (List Char)
  | [] => none
  | c :: rest =>
    match sectionStartMatchAt (c :: rest) with
    | some r => some r
    | none => sectionStartSearch rest

/-- Second alternative of `_SECTION_END_RE`: `RULES OF SALES? IN EXECUTION`
(IGNORECASE, literal spaces). -/
def rulesMatchAt (l : List Char) : Bool :=
  match litCI "rules of sale".data l with
  | none => false
  | some r =>
    let r2 := match r with
              | 's' :: rest => rest
              | 'S' :: rest => rest
              | _ => r
    (litCI " in execution".data r2).isSome

/-- `_SECTION_END_RE` anchored at the head (either alternative). -/
def sectionEndMatchAt (l : List Char) : Bool :=
  (litCI "the properties listed above".data l).isSome || rulesMatchAt l

/-- `body[:end_m.start()]`: cut the text at the leftmost `_SECTION_END_RE`
match (whole text if none). -/
def sectionEndCut : List Char → List Char
  | [] => []
  | c :: rest =>
    if sectionEndMatchAt (c :: rest) then []
    else c :: sectionEndCut rest

/-- `_PROPERTY_SPLIT_RE = ^(\d{1,2})\.\s` tried at a line start: greedy
one-or-two digits, a period, one whitespace character.  Returns
(group 1, the whitespace character, the rest). -/
def splitMatchAt : List Char → Option (List Char × Char × List Char)
  | d1 :: rest =>
    if isDigitC d1 then
      match rest with
      | d2 :: '.' :: s :: r =>
        if isDigitC d2 && isSpaceC s then some ([d1, d2], s, r)
        else match rest with
             | '.' :: s1 :: r1 => if isSpaceC s1 then some ([d1], s1, r1) else none
             | _ => none
      | '.' :: s1 :: r1 => if isSpaceC s1 then some ([d1], s1, r1) else none
      | _ => none
    else none
  | [] => none

/-- `re.split` on `_PROPERTY_SPLIT_RE` (MULTILINE): returns the text before the
first match and the list of (group 1, following segment) pairs.  Fuel-based so
that the definition is structural; `length + 1` fuel always suffices because
every step consumes at least one character. -/
def splitAuxF : ℕ → Bool → List Char → List Char × List (List Char × List Char)
  | 0, _, _ => ([], [])
  | _ + 1, _, [] => ([], [])
  | fuel + 1, lineStart, c :: rest =>
    if lineStart then
      match splitMatchAt (c :: rest) with
      | some (g, s, r) =>
        let p := splitAuxF fuel (s == '\n') r
        ([], (g, p.1) :: p.2)
      | none =>
        let p := splitAuxF fuel (c == '\n') rest
        (c :: p.1, p.2)
    else
      let p := splitAuxF fuel (c == '\n') rest
      (c :: p.1, p.2)

/-- `_PROPERTY_SPLIT_RE.split(body)` in the structured form the consuming loop
walks: the pre-match text and the (number string, block text) pairs. -/
def splitNumbered (l : List Char) : List Char × List (List Char × List Char) :=
  splitAuxF (l.length + 1) true l

/-! ## Numeric conversions and the data model -/

/-- Value of an ASCII digit character. -/
def digitVal (c : Char) : ℕ := c.toNat - 48

/-- Decimal value of a digit string. -/
def natFromDigits (l : List Char) : ℕ := l.foldl (fun n c => n * 10 + digitVal c) 0

/-- Python `int(s)` restricted to the strings the program feeds it
(`none` on anything that is not a nonempty digit string). -/
def natFromDigits? (l : List Char) : Option ℕ :=
  if !l.isEmpty && l.all isDigitC then some (natFromDigits l) else none

/-- Python `float(s)` on the stripped capture groups: these are digit strings
by construction of the regex classes, and such values are exact. -/
def floatOfDigits? (l : List Char) : Option ℚ :=
  if !l.isEmpty && l.all isDigitC then some ((natFromDigits l : ℚ)) else none

/-- `str.strip()` (ASCII whitespace). -/
def stripWs (l : List Char) : List Char :=
  ((l.dropWhile isSpaceC).reverse.dropWhile isSpaceC).reverse

/-- The `Property` dataclass of `listing_parser.py`. -/
structure Property where
  sale_date : List Char
  number : ℕ
  raw_text : List Char
  size_m2 : Option ℚ
  reserve_price : Option ℚ
  reserve_type : List Char
  pdf_url : List Char
deriving DecidableEq, Repr

/-- `Property.is_opportunity`: reserve type is `'none'` or `'bank'`. -/
def is_opportunity (p : Property) : Bool :=
  p.reserve_type == "none".data || p.reserve_type == "bank".data

/-- `Property.property_hash` computes a SHA-256 digest of the key string
`f"{sale_date}|{number}|{raw_text[:80]}"`.  SHA-256 is a fixed function of the
key, so the digest is modelled by its preimage key: two records obtain the same
digest exactly when the code hashes the same key string. -/
def property_hash (p : Property) : List Char :=
  p.sale_date ++ ('|' :: Nat.toDigits 10 p.number) ++ ('|' :: p.raw_text.take 80)

/-! ## Field parsers -/

/-- `_parse_size`: search `_SIZE_RE`, strip `\s` from group 1, `float(...)`. -/
def _parse_size (text : List Char) : Option ℚ :=
  match sizeSearch text with
  | none => none
  | some cap => floatOfDigits? (cap.filter (fun c => !isSpaceC c))

/-- `_parse_reserve`: priority-ordered rules returning
`(reserve_price, reserve_type)`. -/
def _parse_reserve (text : List Char) : Option ℚ × List Char :=
  if noCourtReserveSearch text then (none, "none".data)
  else if bankReserveSearch text then (none, "bank".data)
  else
    match courtSearch text with
    | some cap =>
      match floatOfDigits? (cap.filter (fun c => !(isSpaceC c || c == ','))) with
      | some v => (some v, "court".data)
      | none => (none, "court".data)
    | none => (none, "unknown".data)

/-- Body of the `parse_pdf_properties` loop for one `(num_str, block)` pair:
skip blocks shorter than 20 characters, skip markers that are not valid
integers, otherwise build the `Property`. -/
def mkProperty (sale_date pdf_url : List Char) (entry : List Char × List Char) :
    Option Property :=
  let block := stripWs entry.2
  if block.length < 20 then none
  else
    match natFromDigits? entry.1 with
    | none => none
    | some number =>
      some { sale_date := sale_date
             number := number
             raw_text := block
             size_m2 := _parse_size block
             reserve_price := (_parse_reserve block).1
             reserve_type := (_parse_reserve block).2
             pdf_url := pdf_url }

/-- `parse_pdf_properties(pdf_text, sale_date, pdf_url)`. -/
def parse_pdf_properties (pdf_text sale_date pdf_url : List Char) : List Property :=
  if pdf_text.isEmpty then []
  else
    let body := match sectionStartSearch pdf_text with
                | some rest => rest
                | none => pdf_text
    let body2 := sectionEndCut body
    (splitNumbered body2).2.filterMap (mkProperty sale_date pdf_url)

/-! ## Preference matching (`job_scheduler._matches_property`) -/

/-- A row of the `preferences` table, as the scheduler reads it
(`location_keywords` already decoded, `None`/missing collapsed to `[]`). -/
structure Pref where
  telegram_id : ℕ
  min_price : Option ℚ
  max_price : Option ℚ
  location_keywords : List (List Char)
deriving DecidableEq, Repr

/-- `pat` occurs as a contiguous substring of `l` (Python `in` on `str`). -/
def leadsWith : List Char → List Char → Bool
  | [], _ => true
  | _ :: _, [] => false
  | a :: s, b :: t => a == b && leadsWith s t

def isSubstr (pat : List Char) : List Char → Bool
  | [] => pat.isEmpty
  | l@(_ :: t) => leadsWith pat l || isSubstr pat t

/-- `_matches_property(prop, pref)`. -/
def _matches_property (prop : Property) (pref : Pref) : Bool :=
  if is_opportunity prop then true
  else
    let priceReject :=
      match prop.reserve_price with
      | none => false
      | some rp =>
        (match pref.min_price with | some m => decide (rp < m) | none => false)
        || (match pref.max_price with | some M => decide (M < rp) | none => false)
    if priceReject then false
    else if pref.location_keywords.isEmpty then true
    else pref.location_keywords.any (fun kw => isSubstr (lowerL kw) (lowerL prop.raw_text))

/-! ## Persistence state (`database/db.py`) and the scrape-and-notify loop

The SQLite state the orchestrator touches is the `properties` catalogue
(primary key `property_hash`) and the `seen_listings` table (primary key
`listing_hash`); both are written with `INSERT OR IGNORE`. -/

/-- A registered user row (`users` table, keyed by `telegram_id`). -/
structure User where
  telegram_id : ℕ
  chat_id : ℕ
deriving DecidableEq, Repr

/-- The mutable database state of one run. -/
structure DB where
  catalogue : List Property
  seen : List (List Char)
deriving DecidableEq, Repr

/-- A dispatched notification: `(chat_id, property)`. -/
abbrev Notif := ℕ × Property

/-- `db.is_listing_seen`: membership of the hash in `seen_listings`. -/
def is_listing_seen (db : DB) (h : List Char) : Bool := decide (h ∈ db.seen)

/-- `db.mark_listing_seen`: `INSERT OR IGNORE` into `seen_listings`. -/
def mark_listing_seen (db : DB) (h : List Char) : DB :=
  if h ∈ db.seen then db else { db with seen := db.seen ++ [h] }

/-- `db.upsert_property`: `INSERT OR IGNORE` into `properties`, keyed by the
property hash — a no-op whenever the key already exists. -/
def upsert_property (db : DB) (p : Property) : DB :=
  if property_hash p ∈ db.catalogue.map property_hash then db
  else { db with catalogue := db.catalogue ++ [p] }

/-- The `for prop in properties: db.upsert_property(prop)` loop. -/
def upsertAll (db : DB) (props : List Property) : DB := props.foldl upsert_property db

/-- `users.get(tid)` on the dict keyed by `telegram_id` (unique in the DB). -/
def findUser (users : List User) (tid : ℕ) : Option User :=
  users.find? (fun u => u.telegram_id == tid)

/-- The `for pref in preferences` loop: users notified for `prop`, in dispatch
order, each `telegram_id` at most once (`notified` accumulates sent ids). -/
def prefFold (users : List User) (prop : Property) :
    List Pref → List ℕ → List User
  | [], _ => []
  | pref :: rest, notified =>
    if _matches_property prop pref then
      match findUser users pref.telegram_id with
      | some u =>
        if pref.telegram_id ∈ notified then prefFold users prop rest notified
        else u :: prefFold users prop rest (pref.telegram_id :: notified)
      | none => prefFold users prop rest notified
    else prefFold users prop rest notified

/-- The subscribers targeted for one property: every registered user when no
preference is active (the fallback branch), otherwise the matching-preference
loop. -/
def notifyTargets (users : List User) (prefs : List Pref) (prop : Property) :
    List User :=
  if prefs.isEmpty then users else prefFold users prop prefs []

/-- The per-property section of `scrape_and_notify` (skip if seen; notify the
targets; mark seen exactly when at least one notification went out), iterated
over one event's property list.  Returns the final state and the transcript of
dispatched notifications in order. -/
def processProps (users : List User) (prefs : List Pref) :
    List Property → DB → DB × List Notif
  | [], db => (db, [])
  | p :: ps, db =>
    if is_listing_seen db (property_hash p) then processProps users prefs ps db
    else
      let ts := notifyTargets users prefs p
      if ts.isEmpty then processProps users prefs ps db
      else
        let rest := processProps users prefs ps (mark_listing_seen db (property_hash p))
        (rest.1, ts.map (fun u => (u.chat_id, p)) ++ rest.2)

/-- One raw calendar event as the scheduler consumes it. -/
structure Event where
  date : List Char
  pdf_text : List Char
  pdf_url : List Char
deriving DecidableEq, Repr

/-- The properties extracted from one event's PDF. -/
def eventProps (e : Event) : List Property :=
  parse_pdf_properties e.pdf_text e.date e.pdf_url

/-- The `for event in raw_events` loop of `scrape_and_notify` on the
parse-and-persist branch: extract the event's properties, upsert them all,
then run the notify loop.  (The cached-date branch reloads the identical
records from the catalogue instead of re-parsing; it performs no writes besides
the same notify loop, which `processProps` models for an arbitrary property
list.) -/
def runEvents (users : List User) (prefs : List Pref) :
    List Event → DB → DB × List Notif
  | [], db => (db, [])
  | e :: es, db =>
    let db1 := upsertAll db (eventProps e)
    let r1 := processProps users prefs (eventProps e) db1
    let r2 := runEvents users prefs es r1.1
    (r2.1, r1.2 ++ r2.2)

/-! ## Claim C2, C3: the preference matcher -/

/-- **C2** — For every property whose reserve kind is `'none'` or `'bank'` and
for every preference (any min price, max price and location keywords, whether
or not the keywords occur in the property's raw text), `_matches_property`
returns true. -/
theorem opportunity_always_matches (prop : Property) (pref : Pref)
    (h : prop.reserve_type = "none".data ∨ prop.reserve_type = "bank".data) :
    _matches_property prop pref = true := by
  unfold _matches_property
  rcases h with h | h <;> simp [is_opportunity, h]

/-- Closed instance of `opportunity_always_matches`: the spec's own example, a
no-reserve lot with absurd price bounds and an unmatched keyword. -/
theorem opportunity_always_matches_witness :
    _matches_property
      { sale_date := "2025-03-14".data, number := 1, raw_text := "somewhere else".data,
        size_m2 := none, reserve_price := none, reserve_type := "none".data,
        pdf_url := [] }
      { telegram_id := 7, min_price := some 10000000, max_price := some 10000001,
        location_keywords := ["atlantis".data] } = true :=
  opportunity_always_matches _ _ (Or.inl rfl)

/-- **C3** — For every non-opportunity property with a known reserve price and
every preference whose keyword filter is trivial, the matcher rejects exactly
when (minimum set and price < minimum) or (maximum set and price > maximum);
prices equal to a bound are accepted, and an absent reserve price never causes
a price rejection. -/
theorem price_filter_inclusive_bounds (prop : Property) (pref : Pref)
    (hop : is_opportunity prop = false) (hkw : pref.location_keywords = []) :
    _matches_property prop pref = false ↔
      ∃ r : ℚ, prop.reserve_price = some r ∧
        ((∃ m, pref.min_price = some m ∧ r < m) ∨
         (∃ M, pref.max_price = some M ∧ M < r)) := by
  unfold _matches_property
  rcases hr : prop.reserve_price with _ | r
  · simp [hop, hkw, hr]
  · rcases hm : pref.min_price with _ | m <;> rcases hM : pref.max_price with _ | M
    · simp [hop, hkw, hr, hm, hM]
    · by_cases h2 : M < r <;> simp [hop, hkw, hr, hm, hM, h2]
    · by_cases h1 : r < m <;> simp [hop, hkw, hr, hm, hM, h1]
    · by_cases h1 : r < m <;> by_cases h2 : M < r <;>
        simp [hop, hkw, hr, hm, hM, h1, h2]

/-- Closed instance of `price_filter_inclusive_bounds`: a court-reserve price
one unit below the minimum bound is rejected. -/
theorem price_filter_inclusive_bounds_witness :
    _matches_property
      { sale_date := [], number := 1, raw_text := "Roodepoort".data,
        size_m2 := none, reserve_price := some 499999,
        reserve_type := "court".data, pdf_url := [] }
      { telegram_id := 7, min_price := some 500000, max_price := some 1000000,
        location_keywords := [] } = false :=
  (price_filter_inclusive_bounds
      { sale_date := [], number := 1, raw_text := "Roodepoort".data,
        size_m2 := none, reserve_price := some 499999,
        reserve_type := "court".data, pdf_url := [] }
      { telegram_id := 7, min_price := some 500000, max_price := some 1000000,
        location_keywords := [] } rfl rfl).mpr
    ⟨499999, rfl, Or.inl ⟨500000, rfl, by norm_num⟩⟩

/-! ## Claim C4: priority order of the reserve rules -/

/-- **C4** — The reserve rules apply in priority order: a `"No Court Reserve"`
marker forces kind `'none'` with no price even when the court-reserve price
pattern also occurs; otherwise a `"Bank Reserve"` marker forces kind `'bank'`
with no price; a price is only ever returned with kind `'court'`; and when no
rule applies the result is `'unknown'` with no price. -/
theorem reserve_rule_priority (text : List Char) :
    (noCourtReserveSearch text = true → _parse_reserve text = (none, "none".data))
    ∧ (noCourtReserveSearch text = false → bankReserveSearch text = true →
        _parse_reserve text = (none, "bank".data))
    ∧ (∀ v : ℚ, (_parse_reserve text).1 = some v →
        (_parse_reserve text).2 = "court".data)
    ∧ (noCourtReserveSearch text = false → bankReserveSearch text = false →
        courtSearch text = none → _parse_reserve text = (none, "unknown".data)) := by
  refine ⟨fun h1 => ?_, fun h1 h2 => ?_, fun v hv => ?_, fun h1 h2 h3 => ?_⟩
  · simp [_parse_reserve, h1]
  · simp [_parse_reserve, h1, h2]
  · unfold _parse_reserve at hv ⊢
    split at hv
    · simp at hv
    · split at hv
      · simp at hv
      · split at hv
        · split at hv <;> simp_all
        · simp at hv
  · simp [_parse_reserve, h1, h2, h3]

/-- Closed instance of `reserve_rule_priority`: a text containing both the
court-reserve price pattern and a `No Court Reserve` marker is classified
`'none'` with no price. -/
theorem reserve_rule_priority_witness :
    noCourtReserveSearch "R 850,000 Court Reserve No Court Reserve".data = true ∧
    _parse_reserve "R 850,000 Court Reserve No Court Reserve".data =
      (none, "none".data) :=
  ⟨by decide, (reserve_rule_priority _).1 (by decide)⟩

/-! ## Claim C1: court-reserve amounts -/

theorem courtStar_classes (l : List Char) :
    ∀ cap, courtStar l = some cap → ∀ c ∈ cap, numClass c = true := by
  induction l with
  | nil =>
    intro cap h c hc
    simp only [courtStar] at h
    split at h
    · cases h; simp at hc
    · cases h
  | cons a rest ih =>
    intro cap h c hc
    simp only [courtStar] at h
    split at h
    · split at h
      case _ cap' heq =>
        cases h
        rcases List.mem_cons.mp hc with rfl | hc'
        · assumption
        · exact ih cap' heq c hc'
      case _ =>
        split at h
        · cases h; simp at hc
        · cases h
    · split at h
      · cases h; simp at hc
      · cases h

theorem courtMatchAt_shape (l : List Char) (cap : List Char)
    (h : courtMatchAt l = some cap) :
    ∃ d cs, cap = d :: cs ∧ isDigitC d = true ∧ ∀ c ∈ cs, numClass c = true := by
  cases l with
  | nil => simp [courtMatchAt] at h
  | cons c0 rest =>
    simp only [courtMatchAt] at h
    split at h
    · split at h
      case _ d r2 heq =>
        split at h
        case isTrue hd =>
          rcases hs : courtStar r2 with _ | cs
          · rw [hs] at h; cases h
          · rw [hs] at h
            simp only [Option.map_some'] at h
            cases h
            exact ⟨d, cs, rfl, hd, courtStar_classes r2 cs hs⟩
        case isFalse => cases h
      case _ => cases h
    · cases h

theorem courtSearch_shape (l : List Char) (cap : List Char)
    (h : courtSearch l = some cap) :
    ∃ d cs, cap = d :: cs ∧ isDigitC d = true ∧ ∀ c ∈ cs, numClass c = true := by
  induction l with
  | nil => simp [courtSearch] at h
  | cons c0 rest ih =>
    simp only [courtSearch] at h
    split at h
    case _ cap' heq => cases h; exact courtMatchAt_shape _ _ heq
    case _ => exact ih h

theorem keep_of_digit {c : Char} (h : isDigitC c = true) :
    (!(isSpaceC c || c == ',')) = true := by
  have hn : 48 ≤ c.toNat ∧ c.toNat ≤ 57 := by
    simpa [isDigitC, Bool.and_eq_true, decide_eq_true_eq] using h
  have h1 : isSpaceC c = false := by
    simp only [isSpaceC, Bool.or_eq_false_iff, beq_eq_false_iff_ne]
    omega
  have h2 : (c == ',') = false := by
    refine beq_eq_false_iff_ne.mpr fun hcc => ?_
    subst hcc
    exact absurd h (by decide)
  rw [h1, h2]; rfl

theorem digit_of_class_keep {c : Char} (hc : numClass c = true)
    (hk : (!(isSpaceC c || c == ',')) = true) : isDigitC c = true := by
  simp only [numClass, Bool.or_eq_true] at hc
  simp only [Bool.not_eq_true', Bool.or_eq_false_iff] at hk
  rcases hc with (h | h) | h
  · exact h
  · rw [h] at hk; simp at hk
  · rw [h] at hk; simp at hk

theorem filter_keep_digits (d : Char) (cs : List Char)
    (hd : isDigitC d = true) (hcs : ∀ c ∈ cs, numClass c = true) :
    floatOfDigits? ((d :: cs).filter (fun c => !(isSpaceC c || c == ','))) =
      some ((natFromDigits
        ((d :: cs).filter (fun c => !(isSpaceC c || c == ','))) : ℚ)) := by
  have hfd : (d :: cs).filter (fun c => !(isSpaceC c || c == ',')) =
      d :: cs.filter (fun c => !(isSpaceC c || c == ',')) :=
    List.filter_cons_of_pos (keep_of_digit hd)
  unfold floatOfDigits?
  rw [if_pos]
  rw [hfd]
  simp only [List.isEmpty_cons, Bool.not_false, Bool.true_and, List.all_eq_true]
  intro x hx
  rcases List.mem_cons.mp hx with rfl | hx'
  · exact hd
  · have := List.mem_filter.mp hx'
    exact digit_of_class_keep (hcs x this.1) this.2

/-- **C1** — Whenever the entry text matches the court-reserve price pattern
(a currency amount, thousands separators allowed, immediately followed by
`Court Reserve`) and contains neither a `No Court Reserve` nor a `Bank
Reserve` marker, `_parse_reserve` returns kind `'court'` with the captured
amount parsed as a number, separators stripped (decimals lie outside the
capture group, hence are stripped too); and the spec's end-to-end document
entry under sale date 2025-03-14 yields exactly
`Property{number=3, size_m2=450, reserve_type='court', reserve_price=850000}`. -/
theorem court_reserve_amount_parsed (text : List Char) :
    (∀ cap, noCourtReserveSearch text = false → bankReserveSearch text = false →
      courtSearch text = some cap →
      _parse_reserve text =
        (some ((natFromDigits (cap.filter (fun c => !(isSpaceC c || c == ','))) : ℚ)),
         "court".data))
    ∧ parse_pdf_properties "3. 450 m² ... R 850,000 Court Reserve ... Roodepoort".data
        "2025-03-14".data "doc.pdf".data =
      [{ sale_date := "2025-03-14".data, number := 3,
         raw_text := "450 m² ... R 850,000 Court Reserve ... Roodepoort".data,
         size_m2 := some 450, reserve_price := some 850000,
         reserve_type := "court".data, pdf_url := "doc.pdf".data }] := by
  constructor
  · intro cap h1 h2 h3
    obtain ⟨d, cs, hcap, hd, hcs⟩ := courtSearch_shape text cap h3
    subst hcap
    have hf := filter_keep_digits d cs hd hcs
    simp only [_parse_reserve, h1, h2, h3]
    rw [hf]
    rfl
  · decide

/-- Closed instance of `court_reserve_amount_parsed`: the court-reserve rule
applied to the bare reserve line. -/
theorem court_reserve_amount_parsed_witness :
    _parse_reserve "R 850,000 Court Reserve".data = (some 850000, "court".data) := by
  have h := (court_reserve_amount_parsed "R 850,000 Court Reserve".data).1
    "850,000 ".data rfl rfl rfl
  rw [h]; decide

/-! ## Claim C7: total, per-entry robust extraction -/

theorem mkProperty_fields {sale_date url : List Char} {e : List Char × List Char}
    {p : Property} (h : mkProperty sale_date url e = some p) :
    20 ≤ p.raw_text.length
    ∧ p.size_m2 = _parse_size p.raw_text
    ∧ p.reserve_price = (_parse_reserve p.raw_text).1
    ∧ p.reserve_type = (_parse_reserve p.raw_text).2 := by
  simp only [mkProperty] at h
  split at h
  · cases h
  · split at h
    · cases h
    · cases h
      refine ⟨?_, rfl, rfl, rfl⟩
      show 20 ≤ (stripWs e.2).length
      omega

/-- **C7** — Extraction is total and per-entry robust: the embedding of
`parse_pdf_properties` is a total function on all document texts (empty input
included); every produced `Property` carries a block of at least 20
characters whose size and reserve fields are exactly the per-field parsers'
results — an unmatched size pattern resolves to `none` rather than failing
extraction; an entry whose stripped body is shorter than 20 characters, or
whose numbered marker is not a valid integer, produces no `Property`; and a
skipped short entry does not prevent extraction of subsequent entries. -/
theorem extraction_total_and_robust :
    (∀ text sale_date url p, p ∈ parse_pdf_properties text sale_date url →
      20 ≤ p.raw_text.length
      ∧ p.size_m2 = _parse_size p.raw_text
      ∧ p.reserve_price = (_parse_reserve p.raw_text).1
      ∧ p.reserve_type = (_parse_reserve p.raw_text).2
      ∧ (sizeSearch p.raw_text = none → p.size_m2 = none))
    ∧ (∀ sale_date url g seg, (stripWs seg).length < 20 →
        mkProperty sale_date url (g, seg) = none)
    ∧ (∀ sale_date url g seg, natFromDigits? g = none →
        mkProperty sale_date url (g, seg) = none)
    ∧ parse_pdf_properties [] "d".data "u".data = []
    ∧ parse_pdf_properties "1. short\n2. this is a long enough property entry text".data
        "d".data "u".data =
      [{ sale_date := "d".data, number := 2,
         raw_text := "this is a long enough property entry text".data,
         size_m2 := none, reserve_price := none,
         reserve_type := "unknown".data, pdf_url := "u".data }] := by
  refine ⟨?_, ?_, ?_, rfl, by decide⟩
  · intro text sale_date url p hp
    simp only [parse_pdf_properties] at hp
    split at hp
    · simp at hp
    · obtain ⟨e, _, hmk⟩ := List.mem_filterMap.mp hp
      obtain ⟨h20, hsz, hrp, hrt⟩ := mkProperty_fields hmk
      refine ⟨h20, hsz, hrp, hrt, fun hnone => ?_⟩
      rw [hsz]
      unfold _parse_size
      rw [hnone]
  · intro sale_date url g seg hlen
    simp only [mkProperty]
    rw [if_pos hlen]
  · intro sale_date url g seg hg
    simp only [mkProperty]
    split
    · rfl
    · rw [hg]

/-- Closed instance of `extraction_total_and_robust`, at the surviving entry
of the short-then-long document. -/
theorem extraction_total_and_robust_witness :
    20 ≤ ("this is a long enough property entry text".data : List Char).length :=
  (extraction_total_and_robust.1
    "1. short\n2. this is a long enough property entry text".data "d".data "u".data
    { sale_date := "d".data, number := 2,
      raw_text := "this is a long enough property entry text".data,
      size_m2 := none, reserve_price := none,
      reserve_type := "unknown".data, pdf_url := "u".data } (by decide)).1

/-! ## Claim C9: the numbered-entry split and the sequence-number range -/

theorem splitMatchAt_shape {l g : List Char} {s : Char} {r : List Char}
    (h : splitMatchAt l = some (g, s, r)) :
    (∃ a, g = [a] ∧ isDigitC a = true) ∨
      ∃ a b, g = [a, b] ∧ isDigitC a = true ∧ isDigitC b = true := by
  cases l with
  | nil => cases h
  | cons d1 rest =>
    simp only [splitMatchAt] at h
    split at h
    case isTrue hd1 =>
      split at h
      · split at h
        case isTrue hds =>
          cases h
          have := Bool.and_eq_true _ _ |>.mp hds
          exact Or.inr ⟨d1, _, rfl, hd1, this.1⟩
        case isFalse =>
          split at h
          · split at h
            case isTrue => cases h; exact Or.inl ⟨d1, rfl, hd1⟩
            case isFalse => cases h
          · cases h
      · split at h
        case isTrue => cases h; exact Or.inl ⟨d1, rfl, hd1⟩
        case isFalse => cases h
      · cases h
    case isFalse => cases h

theorem splitAuxF_groups : ∀ (fuel : ℕ) (ls : Bool) (l : List Char)
    (g seg : List Char), (g, seg) ∈ (splitAuxF fuel ls l).2 →
    (∃ a, g = [a] ∧ isDigitC a = true) ∨
      ∃ a b, g = [a, b] ∧ isDigitC a = true ∧ isDigitC b = true := by
  intro fuel
  induction fuel with
  | zero => intro ls l g seg h; simp [splitAuxF] at h
  | succ n ih =>
    intro ls l g seg h
    cases l with
    | nil => simp [splitAuxF] at h
    | cons c rest =>
      simp only [splitAuxF] at h
      split at h
      · split at h
        case _ g' s' r' heq =>
          rcases List.mem_cons.mp h with heq2 | hmem
          · cases heq2
            exact splitMatchAt_shape heq
          · exact ih _ _ g seg hmem
        case _ => exact ih _ _ g seg h
      · exact ih _ _ g seg h

theorem mkProperty_number {sale_date url : List Char} {e : List Char × List Char}
    {p : Property} (h : mkProperty sale_date url e = some p) :
    natFromDigits? e.1 = some p.number := by
  simp only [mkProperty] at h
  split at h
  · cases h
  · split at h
    case _ => cases h
    case _ n heq => cases h; exact heq

theorem digitVal_le_9 {c : Char} (h : isDigitC c = true) : digitVal c ≤ 9 := by
  simp only [isDigitC, Bool.and_eq_true, decide_eq_true_eq] at h
  unfold digitVal
  omega

theorem natFromDigits_le_99 {g : List Char}
    (hg : (∃ a, g = [a] ∧ isDigitC a = true) ∨
      ∃ a b, g = [a, b] ∧ isDigitC a = true ∧ isDigitC b = true) :
    natFromDigits g ≤ 99 := by
  rcases hg with ⟨a, rfl, ha⟩ | ⟨a, b, rfl, ha, hb⟩
  · have := digitVal_le_9 ha
    simp only [natFromDigits, List.foldl]
    omega
  · have h1 := digitVal_le_9 ha
    have h2 := digitVal_le_9 hb
    simp only [natFromDigits, List.foldl]
    omega

/-- **C9 (counterexample)** — The split pattern also accepts the line-start
marker `"0. "`: this document yields a `Property` whose sequence number is 0,
which is not a positive integer between 1 and 99 as the claim states. -/
theorem sequence_zero_possible :
    ∃ p, p ∈ parse_pdf_properties "0. this entry is long enough to keep".data
        "2025-03-14".data "doc.pdf".data ∧ p.number = 0 := by
  refine ⟨{ sale_date := "2025-03-14".data, number := 0,
            raw_text := "this entry is long enough to keep".data,
            size_m2 := none, reserve_price := none,
            reserve_type := "unknown".data, pdf_url := "doc.pdf".data }, ?_, rfl⟩
  decide

/-- **C9 (amended)** — The bounded section is split on numbered-entry markers
of one or two digits (an integer 0–99, leading zeros allowed) followed by a
period and whitespace at line start, and consequently every `Property`
produced by `parse_pdf_properties` has a sequence number of at most 99 (0
included, so the numbers need not be positive). -/
theorem sequence_number_le_99 (text sale_date url : List Char) :
    ∀ p ∈ parse_pdf_properties text sale_date url, p.number ≤ 99 := by
  intro p hp
  simp only [parse_pdf_properties] at hp
  split at hp
  · simp at hp
  · obtain ⟨e, he, hmk⟩ := List.mem_filterMap.mp hp
    obtain ⟨g, seg⟩ := e
    have hval := mkProperty_number hmk
    unfold splitNumbered at he
    have hshape := splitAuxF_groups _ _ _ g seg he
    simp only [natFromDigits?] at hval
    split at hval
    · rw [← Option.some.inj hval]
      exact natFromDigits_le_99 hshape
    · cases hval

/-- Closed instance of `sequence_number_le_99`, applied at the zero-marker
document. -/
theorem sequence_number_le_99_witness :
    ({ sale_date := "d".data, number := 0,
       raw_text := "this entry is long enough to keep".data,
       size_m2 := none, reserve_price := none, reserve_type := "unknown".data,
       pdf_url := "u".data } : Property).number ≤ 99 :=
  sequence_number_le_99 "0. this entry is long enough to keep".data "d".data "u".data
    _ (by decide)

/-! ## Claim C6: the identity hash -/

/-- **C6** — The property identity hash is a function of exactly the sale
date, the sequence number, and the first 80 characters of the raw text: two
records agreeing on those three components hash identically whatever their
other fields (source document reference, size, reserve price, reserve kind)
are.  The digest is modelled by its SHA-256 preimage key, of which the real
digest is a fixed function. -/
theorem property_hash_depends_only_on_key (p q : Property)
    (hd : p.sale_date = q.sale_date) (hn : p.number = q.number)
    (ht : p.raw_text.take 80 = q.raw_text.take 80) :
    property_hash p = property_hash q := by
  unfold property_hash
  rw [hd, hn, ht]

/-! ## The orchestrator loop: supporting lemmas -/

theorem mark_seen_mem {db : DB} {h x : List Char} (hx : x ∈ db.seen) :
    x ∈ (mark_listing_seen db h).seen := by
  unfold mark_listing_seen
  split
  · exact hx
  · exact List.mem_append_left _ hx

theorem mark_seen_self (db : DB) (h : List Char) :
    h ∈ (mark_listing_seen db h).seen := by
  unfold mark_listing_seen
  split
  · assumption
  · exact List.mem_append_right _ (List.mem_singleton.mpr rfl)

theorem mark_seen_mem_iff (db : DB) (h x : List Char) :
    x ∈ (mark_listing_seen db h).seen ↔ x ∈ db.seen ∨ x = h := by
  unfold mark_listing_seen
  split
  case isTrue hin =>
    constructor
    · exact Or.inl
    · rintro (hx | rfl)
      · exact hx
      · exact hin
  case isFalse =>
    show x ∈ db.seen ++ [h] ↔ _
    simp [List.mem_append]

theorem mark_seen_catalogue (db : DB) (h : List Char) :
    (mark_listing_seen db h).catalogue = db.catalogue := by
  unfold mark_listing_seen; split <;> rfl

theorem processProps_catalogue (users : List User) (prefs : List Pref)
    (props : List Property) : ∀ db : DB,
    ((processProps users prefs props db).1).catalogue = db.catalogue := by
  induction props with
  | nil => intro db; rfl
  | cons p ps ih =>
    intro db
    simp only [processProps]
    split
    · exact ih db
    · split
      · exact ih db
      · rw [ih (mark_listing_seen db (property_hash p)), mark_seen_catalogue]

theorem processProps_seen_mono (users : List User) (prefs : List Pref)
    (props : List Property) : ∀ (db : DB) (x : List Char), x ∈ db.seen →
    x ∈ ((processProps users prefs props db).1).seen := by
  induction props with
  | nil => intro db x hx; exact hx
  | cons p ps ih =>
    intro db x hx
    simp only [processProps]
    split
    · exact ih db x hx
    · split
      · exact ih db x hx
      · exact ih _ x (mark_seen_mem hx)

theorem processProps_seen_iff (users : List User) (prefs : List Pref)
    (props : List Property) : ∀ (db : DB) (h : List Char),
    h ∈ ((processProps users prefs props db).1).seen ↔
      h ∈ db.seen ∨ ∃ n ∈ (processProps users prefs props db).2,
        property_hash n.2 = h := by
  induction props with
  | nil =>
    intro db h
    simp [processProps]
  | cons p ps ih =>
    intro db h
    simp only [processProps]
    split
    · rw [ih db h]
    · split
      case isTrue hts => rw [ih db h]
      case isFalse hts =>
        rw [ih (mark_listing_seen db (property_hash p)) h, mark_seen_mem_iff]
        have hne : notifyTargets users prefs p ≠ [] := by
          intro hcon; rw [hcon] at hts; exact hts rfl
        constructor
        · rintro ((hdb | rfl) | ⟨n, hn, hh⟩)
          · exact Or.inl hdb
          · obtain ⟨u, hu⟩ := List.exists_mem_of_ne_nil _ hne
            exact Or.inr ⟨(u.chat_id, p),
              List.mem_append_left _ (List.mem_map_of_mem _ hu), rfl⟩
          · exact Or.inr ⟨n, List.mem_append_right _ hn, hh⟩
        · rintro (hdb | ⟨n, hn, hh⟩)
          · exact Or.inl (Or.inl hdb)
          · rcases List.mem_append.mp hn with hn1 | hn2
            · obtain ⟨u, _, rfl⟩ := List.mem_map.mp hn1
              exact Or.inl (Or.inr hh.symm)
            · exact Or.inr ⟨n, hn2, hh⟩

theorem processProps_notif_src (users : List User) (prefs : List Pref)
    (props : List Property) : ∀ (db : DB) (n : Notif),
    n ∈ (processProps users prefs props db).2 →
    n.2 ∈ props ∧ notifyTargets users prefs n.2 ≠ [] ∧
      property_hash n.2 ∉ db.seen := by
  induction props with
  | nil => intro db n hn; simp [processProps] at hn
  | cons p ps ih =>
    intro db n hn
    simp only [processProps] at hn
    split at hn
    · obtain ⟨h1, h2, h3⟩ := ih db n hn
      exact ⟨List.mem_cons_of_mem _ h1, h2, h3⟩
    case isFalse hseen =>
      split at hn
      · obtain ⟨h1, h2, h3⟩ := ih db n hn
        exact ⟨List.mem_cons_of_mem _ h1, h2, h3⟩
      case isFalse hts =>
        rcases List.mem_append.mp hn with hn1 | hn2
        · obtain ⟨u, _, rfl⟩ := List.mem_map.mp hn1
          refine ⟨List.mem_cons_self _ _, ?_, ?_⟩
          · intro hemp; rw [hemp] at hts; exact hts rfl
          · intro hmem
            exact hseen (by simpa [is_listing_seen] using hmem)
        · obtain ⟨h1, h2, h3⟩ := ih _ n hn2
          exact ⟨List.mem_cons_of_mem _ h1, h2,
            fun hmem => h3 (mark_seen_mem hmem)⟩

theorem processProps_seen_subset (users : List User) (prefs : List Pref)
    (props : List Property) (db : DB) (x : List Char)
    (hx : x ∈ ((processProps users prefs props db).1).seen) :
    x ∈ db.seen ∨ ∃ q ∈ props, property_hash q = x := by
  rcases (processProps_seen_iff users prefs props db x).mp hx with h | ⟨n, hn, hh⟩
  · exact Or.inl h
  · exact Or.inr ⟨n.2, (processProps_notif_src users prefs props db n hn).1, hh⟩

theorem processProps_noop (users : List User) (prefs : List Pref)
    (props : List Property) : ∀ db : DB,
    (∀ q ∈ props, is_listing_seen db (property_hash q) = true ∨
      notifyTargets users prefs q = []) →
    processProps users prefs props db = (db, []) := by
  induction props with
  | nil => intro db _; rfl
  | cons p ps ih =>
    intro db hinv
    simp only [processProps]
    by_cases hs : is_listing_seen db (property_hash p) = true
    · rw [if_pos hs]
      exact ih db (fun q hq => hinv q (List.mem_cons_of_mem _ hq))
    · rw [if_neg hs]
      have hts : notifyTargets users prefs p = [] := by
        rcases hinv p (List.mem_cons_self p ps) with h | h
        · exact absurd h hs
        · exact h
      rw [hts]
      rw [if_pos List.isEmpty_nil]
      exact ih db (fun q hq => hinv q (List.mem_cons_of_mem _ hq))

theorem processProps_inv_after (users : List User) (prefs : List Pref)
    (props : List Property) : ∀ (db : DB) (q : Property), q ∈ props →
    property_hash q ∈ ((processProps users prefs props db).1).seen ∨
      notifyTargets users prefs q = [] := by
  induction props with
  | nil => intro db q hq; simp at hq
  | cons p ps ih =>
    intro db q hq
    simp only [processProps]
    rcases List.mem_cons.mp hq with rfl | hq'
    · by_cases hs : is_listing_seen db (property_hash q) = true
      · rw [if_pos hs]
        left
        apply processProps_seen_mono
        simpa [is_listing_seen] using hs
      · rw [if_neg hs]
        by_cases hemp : (notifyTargets users prefs q).isEmpty = true
        · rw [if_pos hemp]
          right
          exact List.isEmpty_iff.mp hemp
        · rw [if_neg hemp]
          left
          show property_hash q ∈
            ((processProps users prefs ps (mark_listing_seen db (property_hash q))).1).seen
          exact processProps_seen_mono users prefs ps _ _ (mark_seen_self db _)
    · by_cases hs : is_listing_seen db (property_hash p) = true
      · rw [if_pos hs]; exact ih db q hq'
      · rw [if_neg hs]
        by_cases hemp : (notifyTargets users prefs p).isEmpty = true
        · rw [if_pos hemp]; exact ih db q hq'
        · rw [if_neg hemp]
          rcases ih (mark_listing_seen db (property_hash p)) q hq' with h | h
          · left; exact h
          · right; exact h

theorem prefFold_no_match (users : List User) (prop : Property) :
    ∀ (prefs : List Pref) (notified : List ℕ),
    (∀ pref ∈ prefs, _matches_property prop pref = false) →
    prefFold users prop prefs notified = [] := by
  intro prefs
  induction prefs with
  | nil => intro notified _; rfl
  | cons pref rest ih =>
    intro notified hall
    simp only [prefFold]
    rw [if_neg (by simp [hall pref (List.mem_cons_self _ _)])]
    exact ih _ (fun q hq => hall q (List.mem_cons_of_mem _ hq))

theorem processProps_fallback (users : List User) (props : List Property) :
    ∀ (db : DB) (h : List Char), users ≠ [] → h ∉ db.seen →
    (∃ q ∈ props, property_hash q = h) →
    h ∈ ((processProps users [] props db).1).seen ∧
      ∀ u ∈ users, ∃ q, property_hash q = h ∧
        (u.chat_id, q) ∈ (processProps users [] props db).2 := by
  induction props with
  | nil => intro db h hu hseen hex; simp at hex
  | cons p ps ih =>
    intro db h hu hseen hex
    have huemp : ¬ (users.isEmpty = true) := by
      intro hcon; exact hu (List.isEmpty_iff.mp hcon)
    by_cases hph : property_hash p = h
    · simp only [processProps]
      have hs : ¬ is_listing_seen db (property_hash p) = true := by
        simp only [is_listing_seen, decide_eq_true_eq, hph]
        exact hseen
      rw [if_neg hs]
      have hts : notifyTargets users [] p = users := rfl
      rw [hts, if_neg huemp]
      constructor
      · apply processProps_seen_mono
        rw [← hph]
        exact mark_seen_self db _
      · intro u hu2
        exact ⟨p, hph, List.mem_append_left _ (List.mem_map_of_mem _ hu2)⟩
    · have hex' : ∃ q ∈ ps, property_hash q = h := by
        rcases hex with ⟨q, hq, hqh⟩
        rcases List.mem_cons.mp hq with rfl | hq'
        · exact absurd hqh hph
        · exact ⟨q, hq', hqh⟩
      simp only [processProps]
      by_cases hs : is_listing_seen db (property_hash p) = true
      · rw [if_pos hs]
        exact ih db h hu hseen hex'
      · rw [if_neg hs]
        have hts : notifyTargets users [] p = users := rfl
        rw [hts, if_neg huemp]
        have hseen' : h ∉ (mark_listing_seen db (property_hash p)).seen := by
          rw [mark_seen_mem_iff]
          rintro (hmem | rfl)
          · exact hseen hmem
          · exact hph rfl
        obtain ⟨h1, h2⟩ := ih (mark_listing_seen db (property_hash p)) h hu hseen' hex'
        refine ⟨h1, fun u hu2 => ?_⟩
        obtain ⟨q, hq1, hq2⟩ := h2 u hu2
        exact ⟨q, hq1, List.mem_append_right _ hq2⟩

theorem upsert_seen (db : DB) (p : Property) :
    (upsert_property db p).seen = db.seen := by
  unfold upsert_property; split <;> rfl

theorem upsertAll_seen (props : List Property) : ∀ db : DB,
    (upsertAll db props).seen = db.seen := by
  induction props with
  | nil => intro db; rfl
  | cons p ps ih =>
    intro db
    show (upsertAll (upsert_property db p) ps).seen = db.seen
    rw [ih, upsert_seen]

theorem upsert_hash_mem (db : DB) (p : Property) :
    property_hash p ∈ ((upsert_property db p).catalogue).map property_hash := by
  unfold upsert_property
  split
  case isTrue hmem => exact hmem
  case isFalse =>
    rw [List.map_append]
    exact List.mem_append_right _ (by simp)

theorem upsert_hash_mono {db : DB} {p : Property} {x : List Char}
    (hx : x ∈ db.catalogue.map property_hash) :
    x ∈ ((upsert_property db p).catalogue).map property_hash := by
  unfold upsert_property; split
  · exact hx
  · rw [List.map_append]; exact List.mem_append_left _ hx

theorem upsertAll_hash_mono (props : List Property) : ∀ (db : DB) (x : List Char),
    x ∈ db.catalogue.map property_hash →
    x ∈ ((upsertAll db props).catalogue).map property_hash := by
  induction props with
  | nil => intro db x hx; exact hx
  | cons p ps ih => intro db x hx; exact ih _ x (upsert_hash_mono hx)

theorem upsertAll_hash_mem (props : List Property) : ∀ (db : DB) (q : Property),
    q ∈ props →
    property_hash q ∈ ((upsertAll db props).catalogue).map property_hash := by
  induction props with
  | nil => intro db q hq; simp at hq
  | cons p ps ih =>
    intro db q hq
    rcases List.mem_cons.mp hq with rfl | hq'
    · exact upsertAll_hash_mono ps _ _ (upsert_hash_mem db q)
    · exact ih _ q hq'

theorem upsert_noop {db : DB} {p : Property}
    (h : property_hash p ∈ db.catalogue.map property_hash) :
    upsert_property db p = db := by
  unfold upsert_property; rw [if_pos h]

theorem upsertAll_noop (props : List Property) : ∀ db : DB,
    (∀ q ∈ props, property_hash q ∈ db.catalogue.map property_hash) →
    upsertAll db props = db := by
  induction props with
  | nil => intro db _; rfl
  | cons p ps ih =>
    intro db hall
    show upsertAll (upsert_property db p) ps = db
    rw [upsert_noop (hall p (List.mem_cons_self p ps))]
    exact ih db (fun q hq => hall q (List.mem_cons_of_mem _ hq))

theorem runEvents_seen_mono (users : List User) (prefs : List Pref)
    (events : List Event) : ∀ (db : DB) (x : List Char), x ∈ db.seen →
    x ∈ ((runEvents users prefs events db).1).seen := by
  induction events with
  | nil => intro db x hx; exact hx
  | cons e es ih =>
    intro db x hx
    simp only [runEvents]
    apply ih
    apply processProps_seen_mono
    rw [upsertAll_seen]
    exact hx

theorem runEvents_hash_mono (users : List User) (prefs : List Pref)
    (events : List Event) : ∀ (db : DB) (x : List Char),
    x ∈ db.catalogue.map property_hash →
    x ∈ (((runEvents users prefs events db).1).catalogue).map property_hash := by
  induction events with
  | nil => intro db x hx; exact hx
  | cons e es ih =>
    intro db x hx
    simp only [runEvents]
    apply ih
    rw [processProps_catalogue]
    exact upsertAll_hash_mono _ _ _ hx

theorem runEvents_hash_mem (users : List User) (prefs : List Pref)
    (events : List Event) : ∀ (db : DB) (e : Event) (q : Property),
    e ∈ events → q ∈ eventProps e →
    property_hash q ∈
      (((runEvents users prefs events db).1).catalogue).map property_hash := by
  induction events with
  | nil => intro db e q he; simp at he
  | cons e0 es ih =>
    intro db e q he hq
    simp only [runEvents]
    rcases List.mem_cons.mp he with rfl | he'
    · apply runEvents_hash_mono users prefs es
      rw [processProps_catalogue]
      exact upsertAll_hash_mem _ _ q hq
    · exact ih _ e q he' hq

theorem runEvents_notif_src (users : List User) (prefs : List Pref)
    (events : List Event) : ∀ (db : DB) (n : Notif),
    n ∈ (runEvents users prefs events db).2 →
    (∃ e ∈ events, n.2 ∈ eventProps e) ∧ notifyTargets users prefs n.2 ≠ [] ∧
      property_hash n.2 ∉ db.seen := by
  induction events with
  | nil => intro db n hn; simp [runEvents] at hn
  | cons e es ih =>
    intro db n hn
    simp only [runEvents] at hn
    rcases List.mem_append.mp hn with hn1 | hn2
    · obtain ⟨h1, h2, h3⟩ := processProps_notif_src users prefs _ _ n hn1
      refine ⟨⟨e, List.mem_cons_self e es, h1⟩, h2, ?_⟩
      rw [upsertAll_seen] at h3
      exact h3
    · obtain ⟨⟨e', he', h1⟩, h2, h3⟩ := ih _ n hn2
      refine ⟨⟨e', List.mem_cons_of_mem _ he', h1⟩, h2, fun hmem => h3 ?_⟩
      apply processProps_seen_mono
      rw [upsertAll_seen]
      exact hmem

theorem runEvents_seen_iff (users : List User) (prefs : List Pref)
    (events : List Event) : ∀ (db : DB) (h : List Char),
    h ∈ ((runEvents users prefs events db).1).seen ↔
      h ∈ db.seen ∨ ∃ n ∈ (runEvents users prefs events db).2,
        property_hash n.2 = h := by
  induction events with
  | nil => intro db h; simp [runEvents]
  | cons e es ih =>
    intro db h
    simp only [runEvents]
    rw [ih, processProps_seen_iff users prefs (eventProps e)
          (upsertAll db (eventProps e)) h, upsertAll_seen]
    constructor
    · rintro ((hdb | ⟨n, hn, hh⟩) | ⟨n, hn, hh⟩)
      · exact Or.inl hdb
      · exact Or.inr ⟨n, List.mem_append_left _ hn, hh⟩
      · exact Or.inr ⟨n, List.mem_append_right _ hn, hh⟩
    · rintro (hdb | ⟨n, hn, hh⟩)
      · exact Or.inl (Or.inl hdb)
      · rcases List.mem_append.mp hn with h1 | h2
        · exact Or.inl (Or.inr ⟨n, h1, hh⟩)
        · exact Or.inr ⟨n, h2, hh⟩

theorem runEvents_inv_after (users : List User) (prefs : List Pref)
    (events : List Event) : ∀ (db : DB) (e : Event) (q : Property),
    e ∈ events → q ∈ eventProps e →
    property_hash q ∈ ((runEvents users prefs events db).1).seen ∨
      notifyTargets users prefs q = [] := by
  induction events with
  | nil => intro db e q he; simp at he
  | cons e0 es ih =>
    intro db e q he hq
    simp only [runEvents]
    rcases List.mem_cons.mp he with rfl | he'
    · rcases processProps_inv_after users prefs (eventProps e)
        (upsertAll db (eventProps e)) q hq with h | h
      · left
        apply runEvents_seen_mono
        exact h
      · right; exact h
    · exact ih _ e q he' hq

theorem runEvents_noop (users : List User) (prefs : List Pref)
    (events : List Event) : ∀ db : DB,
    (∀ e ∈ events, ∀ q ∈ eventProps e,
      property_hash q ∈ db.catalogue.map property_hash) →
    (∀ e ∈ events, ∀ q ∈ eventProps e,
      property_hash q ∈ db.seen ∨ notifyTargets users prefs q = []) →
    runEvents users prefs events db = (db, []) := by
  induction events with
  | nil => intro db _ _; rfl
  | cons e es ih =>
    intro db hcat hinv
    simp only [runEvents]
    have h1 : upsertAll db (eventProps e) = db :=
      upsertAll_noop _ db (fun q hq => hcat e (List.mem_cons_self e es) q hq)
    rw [h1]
    have h2 : processProps users prefs (eventProps e) db = (db, []) := by
      apply processProps_noop
      intro q hq
      rcases hinv e (List.mem_cons_self e es) q hq with h | h
      · left
        simp only [is_listing_seen, decide_eq_true_eq]
        exact h
      · right; exact h
    rw [h2]
    show ((runEvents users prefs es db).1, [] ++ (runEvents users prefs es db).2) =
      (db, [])
    rw [ih db (fun e' he' => hcat e' (List.mem_cons_of_mem _ he'))
          (fun e' he' => hinv e' (List.mem_cons_of_mem _ he'))]
    rfl

theorem runEvents_fallback (users : List User) (events : List Event) :
    ∀ (db : DB) (h : List Char), users ≠ [] → h ∉ db.seen →
    (∃ e ∈ events, ∃ q ∈ eventProps e, property_hash q = h) →
    h ∈ ((runEvents users [] events db).1).seen ∧
      ∀ u ∈ users, ∃ q, property_hash q = h ∧
        (u.chat_id, q) ∈ (runEvents users [] events db).2 := by
  induction events with
  | nil => intro db h hu hs hex; simp at hex
  | cons e0 es ih =>
    intro db h hu hs hex
    by_cases hin : ∃ q ∈ eventProps e0, property_hash q = h
    · simp only [runEvents]
      have hs1 : h ∉ (upsertAll db (eventProps e0)).seen := by
        rw [upsertAll_seen]; exact hs
      obtain ⟨h1, h2⟩ := processProps_fallback users (eventProps e0)
        (upsertAll db (eventProps e0)) h hu hs1 hin
      constructor
      · apply runEvents_seen_mono
        exact h1
      · intro u hu2
        obtain ⟨q, hq1, hq2⟩ := h2 u hu2
        exact ⟨q, hq1, List.mem_append_left _ hq2⟩
    · have hex' : ∃ e ∈ es, ∃ q ∈ eventProps e, property_hash q = h := by
        rcases hex with ⟨e, he, hq⟩
        rcases List.mem_cons.mp he with rfl | he'
        · exact absurd hq hin
        · exact ⟨e, he', hq⟩
      simp only [runEvents]
      have hs2 : h ∉
          ((processProps users [] (eventProps e0) (upsertAll db (eventProps e0))).1).seen := by
        intro hcon
        rcases processProps_seen_subset users [] (eventProps e0) _ h hcon with hc | ⟨q, hq, hqh⟩
        · rw [upsertAll_seen] at hc; exact hs hc
        · exact hin ⟨q, hq, hqh⟩
      obtain ⟨h1, h2⟩ := ih _ h hu hs2 hex'
      refine ⟨h1, fun u hu2 => ?_⟩
      obtain ⟨q, hq1, hq2⟩ := h2 u hu2
      exact ⟨q, hq1, List.mem_append_right _ hq2⟩

/-- Closed instance of `property_hash_depends_only_on_key`: same key triple,
different source URL, size, reserve price and reserve kind. -/
theorem property_hash_depends_only_on_key_witness :
    property_hash
      { sale_date := "2025-03-14".data, number := 3, raw_text := "450 m² lot".data,
        size_m2 := some 450, reserve_price := some 850000,
        reserve_type := "court".data, pdf_url := "a.pdf".data } =
    property_hash
      { sale_date := "2025-03-14".data, number := 3, raw_text := "450 m² lot".data,
        size_m2 := none, reserve_price := none,
        reserve_type := "unknown".data, pdf_url := "b.pdf".data } :=
  property_hash_depends_only_on_key _ _ rfl rfl rfl

/-! ## Claim C5: seen iff a subscriber was targeted -/

/-- **C5** — In every orchestrator run, an identity is marked seen if and only
if it was already seen or at least one subscriber was targeted for a
notification for a property with that identity during the run; and a property
that matches zero active preferences (with at least one preference active, so
the fallback does not fire, and no same-identity record matching either) is
left unmarked, to be evaluated again on a later run. -/
theorem seen_iff_subscriber_targeted (users : List User) (prefs : List Pref)
    (events : List Event) (db : DB) (h : List Char) :
    (h ∈ ((runEvents users prefs events db).1).seen ↔
      h ∈ db.seen ∨ ∃ n ∈ (runEvents users prefs events db).2,
        property_hash n.2 = h)
    ∧ (prefs ≠ [] → h ∉ db.seen →
        (∀ e ∈ events, ∀ q ∈ eventProps e, property_hash q = h →
          ∀ pref ∈ prefs, _matches_property q pref = false) →
        h ∉ ((runEvents users prefs events db).1).seen) := by
  refine ⟨runEvents_seen_iff users prefs events db h, ?_⟩
  intro hp hseen hnm hcon
  rcases (runEvents_seen_iff users prefs events db h).mp hcon with hdb | ⟨n, hn, hh⟩
  · exact hseen hdb
  · obtain ⟨⟨e, he, hq⟩, hts, _⟩ := runEvents_notif_src users prefs events db n hn
    apply hts
    have hfail := hnm e he n.2 hq hh
    unfold notifyTargets
    rw [if_neg (fun hcon2 => hp (List.isEmpty_iff.mp hcon2))]
    exact prefFold_no_match users n.2 prefs [] hfail

/-- Closed instance of `seen_iff_subscriber_targeted`: one active preference
whose minimum exceeds the lone property's court reserve; the property's
identity stays unmarked after the run. -/
theorem seen_iff_subscriber_targeted_witness :
    property_hash
      { sale_date := "2025-03-14".data, number := 1,
        raw_text := "R 850,000 Court Reserve in Roodepoort".data,
        size_m2 := none, reserve_price := some 850000,
        reserve_type := "court".data, pdf_url := "p.pdf".data } ∉
      ((runEvents [{ telegram_id := 5, chat_id := 50 }]
          [{ telegram_id := 5, min_price := some 900000, max_price := none,
             location_keywords := [] }]
          [{ date := "2025-03-14".data,
             pdf_text := "1. R 850,000 Court Reserve in Roodepoort".data,
             pdf_url := "p.pdf".data }]
          { catalogue := [], seen := [] }).1).seen :=
  (seen_iff_subscriber_targeted
      [{ telegram_id := 5, chat_id := 50 }]
      [{ telegram_id := 5, min_price := some 900000, max_price := none,
         location_keywords := [] }]
      [{ date := "2025-03-14".data,
         pdf_text := "1. R 850,000 Court Reserve in Roodepoort".data,
         pdf_url := "p.pdf".data }]
      { catalogue := [], seen := [] }
      (property_hash
        { sale_date := "2025-03-14".data, number := 1,
          raw_text := "R 850,000 Court Reserve in Roodepoort".data,
          size_m2 := none, reserve_price := some 850000,
          reserve_type := "court".data, pdf_url := "p.pdf".data })).2
    (by decide) (by decide) (by decide)

/-! ## Claim C8: idempotent ingestion -/

/-- **C8** — Ingestion is idempotent: upserting a property whose identity hash
already exists in the catalogue is a no-op that never overwrites the stored
row; no notification of a run ever targets an identity already marked seen
when the run starts; and running the orchestrator a second time on unchanged
input leaves the catalogue and seen state exactly as after the first run
(hence no duplicate rows) and dispatches no notification at all. -/
theorem ingestion_idempotent :
    (∀ (db : DB) (p r : Property), r ∈ db.catalogue →
      property_hash r = property_hash p → upsert_property db p = db)
    ∧ (∀ (users : List User) (prefs : List Pref) (events : List Event) (db : DB),
        ∀ n ∈ (runEvents users prefs events db).2, property_hash n.2 ∉ db.seen)
    ∧ (∀ (users : List User) (prefs : List Pref) (events : List Event) (db : DB),
        runEvents users prefs events (runEvents users prefs events db).1 =
          ((runEvents users prefs events db).1, [])) := by
  refine ⟨?_, ?_, ?_⟩
  · intro db p r hr hh
    apply upsert_noop
    rw [← hh]
    exact List.mem_map_of_mem property_hash hr
  · intro users prefs events db n hn
    exact (runEvents_notif_src users prefs events db n hn).2.2
  · intro users prefs events db
    apply runEvents_noop
    · intro e he q hq
      exact runEvents_hash_mem users prefs events db e q he hq
    · intro e he q hq
      exact runEvents_inv_after users prefs events db e q he hq

/-- Closed instance of `ingestion_idempotent`: re-inserting a record with the
same identity key but different text beyond the hashed prefix-80 leaves the
first-seen row untouched. -/
theorem ingestion_idempotent_witness :
    upsert_property
      { catalogue := [{ sale_date := "2025-03-14".data, number := 1,
                        raw_text := "first seen raw text kept forever".data,
                        size_m2 := none, reserve_price := some 850000,
                        reserve_type := "court".data, pdf_url := "a.pdf".data }],
        seen := [] }
      { sale_date := "2025-03-14".data, number := 1,
        raw_text := "first seen raw text kept forever".data,
        size_m2 := some 450, reserve_price := none,
        reserve_type := "unknown".data, pdf_url := "b.pdf".data } =
    { catalogue := [{ sale_date := "2025-03-14".data, number := 1,
                      raw_text := "first seen raw text kept forever".data,
                      size_m2 := none, reserve_price := some 850000,
                      reserve_type := "court".data, pdf_url := "a.pdf".data }],
      seen := [] } :=
  ingestion_idempotent.1 _ _
    { sale_date := "2025-03-14".data, number := 1,
      raw_text := "first seen raw text kept forever".data,
      size_m2 := none, reserve_price := some 850000,
      reserve_type := "court".data, pdf_url := "a.pdf".data }
    (by decide) (by decide)

/-! ## Claim C10: the no-preference fallback -/

/-- **C10** — When no preference is active and at least one user is
registered, every not-yet-seen property identity in the run is sent to every
registered user and then marked seen; once seen, no later run (with any
preferences, even ones that would now match) ever dispatches a notification
for that identity again. -/
theorem no_preference_fallback (users : List User) (events : List Event)
    (db : DB) (e : Event) (p : Property)
    (hu : users ≠ []) (he : e ∈ events) (hp : p ∈ eventProps e)
    (hseen : property_hash p ∉ db.seen) :
    property_hash p ∈ ((runEvents users [] events db).1).seen
    ∧ (∀ u ∈ users, ∃ q, property_hash q = property_hash p ∧
        (u.chat_id, q) ∈ (runEvents users [] events db).2)
    ∧ (∀ (users2 : List User) (prefs2 : List Pref) (events2 : List Event)
        (db2 : DB), property_hash p ∈ db2.seen →
        ∀ n ∈ (runEvents users2 prefs2 events2 db2).2,
          property_hash n.2 ≠ property_hash p) := by
  obtain ⟨h1, h2⟩ := runEvents_fallback users events db (property_hash p) hu hseen
    ⟨e, he, p, hp, rfl⟩
  refine ⟨h1, h2, ?_⟩
  intro users2 prefs2 events2 db2 hdb2 n hn heq
  exact (runEvents_notif_src users2 prefs2 events2 db2 n hn).2.2 (heq ▸ hdb2)

/-- Closed instance of `no_preference_fallback`: with no active preference the
lone registered user is notified of the freshly parsed property and its
identity is marked seen. -/
theorem no_preference_fallback_witness :
    property_hash
      { sale_date := "2025-03-21".data, number := 2,
        raw_text := "Bank Reserve property in Krugersdorp".data,
        size_m2 := none, reserve_price := none,
        reserve_type := "bank".data, pdf_url := "q.pdf".data } ∈
      ((runEvents [{ telegram_id := 9, chat_id := 90 }] []
          [{ date := "2025-03-21".data,
             pdf_text := "2. Bank Reserve property in Krugersdorp".data,
             pdf_url := "q.pdf".data }]
          { catalogue := [], seen := [] }).1).seen :=
  (no_preference_fallback [{ telegram_id := 9, chat_id := 90 }]
      [{ date := "2025-03-21".data,
         pdf_text := "2. Bank Reserve property in Krugersdorp".data,
         pdf_url := "q.pdf".data }]
      { catalogue := [], seen := [] }
      { date := "2025-03-21".data,
        pdf_text := "2. Bank Reserve property in Krugersdorp".data,
        pdf_url := "q.pdf".data }
      { sale_date := "2025-03-21".data, number := 2,
        raw_text := "Bank Reserve property in Krugersdorp".data,
        size_m2 := none, reserve_price := none,
        reserve_type := "bank".data, pdf_url := "q.pdf".data }
      (by decide) (by decide) (by decide) (by decide)).1

end PropertyAgent
